import Mathlib

/-!
Verification of the long-audio chunking / stitching / segmentation pipeline
of `src/python/parakeet_transcribe.py`.

Shallow embedding conventions:
* Python float seconds are modelled as `ℚ` (exact arithmetic on the literals
  appearing in the source: `0.16`, `15.0`, `120.0`, sample counts / 16000).
* Audio data is irrelevant to every property below; a chunk produced by
  `chunk_audio` is represented by its sample range `[startSample, endSample)`
  (the source stores the slice `audio[start:end]` together with
  `start_time = start / sample_rate` and `end_time = end / sample_rate`).
* The recognizer is opaque; its per-chunk output is a pair of lists
  (`result.tokens`, `result.timestamps`).
* Python exceptions are modelled with `Except String`.
-/

namespace Parakeet

/-! ### Python string helpers used by the source -/

/-- Python whitespace characters relevant to `str.strip()`. -/
def isPySpace (c : Char) : Bool :=
  c = ' ' || c = '\t' || c = '\n' || c = '\x0d' || c = '\x0b' || c = '\x0c'

/-- `str.strip()` on a character list: drop whitespace from both ends. -/
def pyStripList (l : List Char) : List Char :=
  ((l.dropWhile isPySpace).reverse.dropWhile isPySpace).reverse

/-- Python `str.strip()`. -/
def pyStrip (s : String) : String := ⟨pyStripList s.data⟩

/-- Python `''.join(tokens)`: plain concatenation. -/
def pyJoin (l : List String) : String := ⟨(l.map String.data).flatten⟩

/-- Erase every whitespace character; two texts are equal "modulo
whitespace" iff their `removeWS` images coincide. -/
def removeWS (l : List Char) : List Char := l.filter (fun c => !isPySpace c)

/-- Python `s.endswith(c)` for a one-character suffix. -/
def endswith (s : String) (c : Char) : Bool := s.data.getLast? = some c

/-- The sentence-ending punctuation set of `tokens_to_sentences`. -/
def sentence_end_puncts : List Char := ['.', '!', '?']

/-- `any(token.strip().endswith(p) for p in sentence_end_puncts)`
(source line 117). -/
def is_sentence_end (token : String) : Bool :=
  sentence_end_puncts.any (fun p => endswith (pyStrip token) p)

/-! ### Windower: `chunk_audio` (source lines 57-89) -/

/-- One element of the list returned by `chunk_audio`, represented by its
sample range; the source tuple is
`(audio[start:end], start / sample_rate, end / sample_rate)`. -/
structure Chunk where
  startSample : Nat
  endSample : Nat
  deriving Repr, DecidableEq

/-- `start_time = start / sample_rate` of a chunk, at the pipeline's fixed
16 kHz sample rate. -/
def Chunk.start_time (c : Chunk) : ℚ := (c.startSample : ℚ) / 16000

/-- `end_time = end / sample_rate` of a chunk, at 16 kHz. -/
def Chunk.end_time (c : Chunk) : ℚ := (c.endSample : ℚ) / 16000

/-- The `for start in range(0, len(audio), stride)` loop of `chunk_audio`:
emit `(start, min (start + chunk_samples) total)`, stop once the emitted
range reaches `total`.  `fuel` bounds the iteration count; every caller
passes enough fuel for the loop to run to completion. -/
def chunk_go (total chunk_samples stride : Nat) : Nat → Nat → List Chunk
  | 0, _ => []
  | fuel + 1, start =>
    if start < total then
      let e := min (start + chunk_samples) total
      if total ≤ e then [⟨start, e⟩]
      else ⟨start, e⟩ :: chunk_go total chunk_samples stride fuel (start + stride)
    else []

/-- `chunk_audio`, at the level of sample counts
(`chunk_samples = int(chunk_duration * sample_rate)` etc. are computed by the
caller).  `stride = chunk_samples - overlap_samples`; Python's
`range(0, len(audio), stride)` raises `ValueError` when `stride == 0` and is
empty when `stride < 0`, so the function returns an error, respectively an
empty chunk list, in those cases — the source performs no validation of its
own. -/
def chunk_audio_samples (total chunk_samples overlap_samples : Nat) :
    Except String (List Chunk) :=
  let stride : Int := (chunk_samples : Int) - (overlap_samples : Int)
  if stride = 0 then .error "ValueError: range() arg 3 must not be zero"
  else if stride < 0 then .ok []
  else .ok (chunk_go total chunk_samples stride.toNat (total / stride.toNat + 2) 0)

/-- Python `int(q)` for a rational: truncation toward zero. -/
def pyInt (q : ℚ) : Int := Int.tdiv q.num (q.den : Int)

/-- `chunk_audio(audio, chunk_duration, overlap_duration, sample_rate)` with
durations in seconds:
`chunk_samples = int(chunk_duration * sample_rate)` and
`overlap_samples = int(overlap_duration * sample_rate)` (source lines 70-71;
durations are nonnegative at every call site, so the sample counts are
naturals). -/
def chunk_audio (total : Nat) (chunk_duration overlap_duration : ℚ)
    (sample_rate : Nat) : Except String (List Chunk) :=
  chunk_audio_samples total (pyInt (chunk_duration * sample_rate)).toNat
    (pyInt (overlap_duration * sample_rate)).toNat

/-! ### Segmenter: `tokens_to_sentences` (source lines 91-143) -/

/-- One output record `{'text': ..., 'start': ..., 'end': ...}`. -/
structure Sentence where
  text : String
  start : ℚ
  stop : ℚ
  deriving Repr, DecidableEq

/-- The token loop of `tokens_to_sentences`: walks the zipped
`(token, timestamp)` pairs with running index `i`, accumulating
`current_tokens` and `current_start`.  A sentence closes when the token's
stripped text ends in `.`/`!`/`?` or when `i == len(tokens) - 1`; its end is
`timestamps[i+1]` when that index exists, else `ts + 0.16`; empty-after-strip
sentence texts are dropped but the buffer and start still reset. -/
def tts_go (tokensLen : Nat) (timestamps : List ℚ) :
    List (String × ℚ) → Nat → List String → ℚ → List Sentence
  | [], _, _, _ => []
  | (token, ts) :: rest, i, current_tokens, current_start =>
    let current_tokens' := current_tokens ++ [token]
    if is_sentence_end token || decide (i = tokensLen - 1) then
      let current_end : ℚ :=
        match timestamps[i + 1]? with
        | some t => t
        | none => ts + 16 / 100
      let text := pyStrip (pyJoin current_tokens')
      let emitted : List Sentence :=
        if text ≠ "" then [⟨text, current_start, current_end⟩] else []
      let next_start : ℚ :=
        match timestamps[i + 1]? with
        | some t => t
        | none => current_start
      emitted ++ tts_go tokensLen timestamps rest (i + 1) [] next_start
    else
      tts_go tokensLen timestamps rest (i + 1) current_tokens' current_start

/-- `tokens_to_sentences(tokens, timestamps)` (source lines 91-143).
Returns `[]` when either list is empty; otherwise runs the token loop over
`zip(tokens, timestamps)` starting from `current_start = timestamps[0]`. -/
def tokens_to_sentences (tokens : List String) (timestamps : List ℚ) :
    List Sentence :=
  if tokens.isEmpty || timestamps.isEmpty then []
  else tts_go tokens.length timestamps (tokens.zip timestamps) 0 []
    (timestamps.headD 0)

/-! ### Stitcher: the chunk merge loop of `transcribe_with_chunking`
(source lines 175-216) -/

/-- The token filter loop of the overlap handling (source lines 200-206):
keep `(token, ts)` iff `ts >= overlap_end or ts > last_prev_time`, building
`filtered_tokens` and `filtered_timestamps` in order. -/
def filter_overlap (overlap_end last_prev_time : ℚ) :
    List (String × ℚ) → List String × List ℚ
  | [] => ([], [])
  | (token, ts) :: rest =>
    let acc := filter_overlap overlap_end last_prev_time rest
    if overlap_end ≤ ts || last_prev_time < ts then (token :: acc.1, ts :: acc.2)
    else acc

/-- The body of one iteration of the chunk loop (source lines 184-213) for a
result carrying tokens and timestamps: shift the window-local timestamps by
`chunk_start`; when `i > 0` and the accumulated stream is non-empty, append
only the pairs passing the overlap filter (against
`last_prev_time = all_timestamps[-1]` and
`overlap_end = chunk_start + overlap_time`); otherwise append everything. -/
def merge_chunk (overlap_time : ℚ) (i : Nat) (chunk_start : ℚ)
    (st : List String × List ℚ) (tokens : List String) (timestamps : List ℚ) :
    List String × List ℚ :=
  let adjusted_timestamps := timestamps.map (fun ts => ts + chunk_start)
  if 0 < i ∧ st.2 ≠ [] then
    let last_prev_time := st.2.getLastD 0
    let overlap_end := chunk_start + overlap_time
    let filtered :=
      filter_overlap overlap_end last_prev_time (tokens.zip adjusted_timestamps)
    (st.1 ++ filtered.1, st.2 ++ filtered.2)
  else
    (st.1 ++ tokens, st.2 ++ adjusted_timestamps)

/-- Per-chunk input of the stitching loop: the chunk descriptor together with
the recognizer's `(result.tokens, result.timestamps)` for that chunk. -/
abbrev ChunkResult := Chunk × List String × List ℚ

/-- One enumerated iteration of the chunk loop: index `x.1`, chunk `x.2.1`,
recognizer output `x.2.2`. -/
def stitch_step (overlap_time : ℚ) (st : List String × List ℚ)
    (x : Nat × ChunkResult) : List String × List ℚ :=
  merge_chunk overlap_time x.1 x.2.1.start_time st x.2.2.1 x.2.2.2

/-- The whole chunk loop of `transcribe_with_chunking` (lines 178-213): fold
`merge_chunk` over the enumerated chunk results, starting from empty
`all_tokens` / `all_timestamps`. -/
def stitch (overlap_time : ℚ) (inputs : List ChunkResult) :
    List String × List ℚ :=
  (inputs.enum).foldl (stitch_step overlap_time) ([], [])

/-- Lines 171-216 of the source given the per-chunk recognition results: merge
all chunks (the source hardcodes `overlap_time = 15.0` seconds), then
segment the merged stream. -/
def transcribe_chunked (inputs : List ChunkResult) : List Sentence :=
  let merged := stitch 15 inputs
  tokens_to_sentences merged.1 merged.2

/-! ### The short-audio path (source lines 162-169) -/

/-- Shape of a recognition result as the source inspects it: either it has
both a `tokens` and a `timestamps` attribute, or it is treated as plain
text. -/
inductive RecResult where
  | tokensResult (tokens : List String) (timestamps : List ℚ)
  | plainText (text : String)
  deriving Repr, DecidableEq

/-- The `duration <= chunk_duration` branch of `transcribe_with_chunking`
(source lines 162-169): a token-bearing result is segmented with
`tokens_to_sentences`; any other result becomes the single sentence
`{'text': text, 'start': 0.0, 'end': duration}`. -/
def transcribe_short (result : RecResult) (duration : ℚ) : List Sentence :=
  match result with
  | .tokensResult toks tss => tokens_to_sentences toks tss
  | .plainText text => [⟨text, 0, duration⟩]

/-! ### Lemmas about the Windower -/

theorem chunk_go_mem {total ch s : Nat} :
    ∀ {fuel start : Nat} {c : Chunk}, c ∈ chunk_go total ch s fuel start →
      start ≤ c.startSample ∧ c.startSample < total ∧
      c.endSample = min (c.startSample + ch) total := by
  intro fuel
  induction fuel with
  | zero => intro start c h; simp [chunk_go] at h
  | succ f ih =>
    intro start c h
    simp only [chunk_go] at h
    by_cases hs : start < total
    · rw [if_pos hs] at h
      by_cases he : total ≤ min (start + ch) total
      · rw [if_pos he] at h
        simp only [List.mem_singleton] at h
        subst h
        exact ⟨le_refl _, hs, rfl⟩
      · rw [if_neg he] at h
        rcases List.mem_cons.mp h with h | h
        · subst h
          exact ⟨le_refl _, hs, rfl⟩
        · obtain ⟨h1, h2, h3⟩ := ih h
          exact ⟨by omega, h2, h3⟩
    · rw [if_neg hs] at h
      simp at h

theorem chunk_go_cover {total ch s : Nat} (_hs : 1 ≤ s) (hsc : s ≤ ch) :
    ∀ (fuel start : Nat), total ≤ start + fuel * s →
      ∀ x : Nat, start ≤ x → x < total →
        ∃ c ∈ chunk_go total ch s fuel start, c.startSample ≤ x ∧ x < c.endSample := by
  intro fuel
  induction fuel with
  | zero => intro start hfuel x hx hxt; omega
  | succ f ih =>
    intro start hfuel x hx hxt
    have hmul : (f + 1) * s = f * s + s := by ring
    have hst : start < total := by omega
    by_cases hxe : x < min (start + ch) total
    · refine ⟨⟨start, min (start + ch) total⟩, ?_, hx, hxe⟩
      simp only [chunk_go, if_pos hst]
      by_cases he : total ≤ min (start + ch) total
      · rw [if_pos he]; exact List.mem_singleton.mpr rfl
      · rw [if_neg he]; exact List.mem_cons_self _ _
    · have hmin : min (start + ch) total ≤ x := Nat.not_lt.mp hxe
      have h5 : start + ch ≤ x ∧ start + ch < total := by
        rcases le_total (start + ch) total with hc | hc
        · rw [min_eq_left hc] at hmin; omega
        · rw [min_eq_right hc] at hmin; omega
      have he : ¬ total ≤ min (start + ch) total := by
        rw [min_eq_left (by omega)]; omega
      have hrec : start + s ≤ x := by omega
      obtain ⟨c, hc, h1, h2⟩ := ih (start + s) (by omega) x hrec hxt
      refine ⟨c, ?_, h1, h2⟩
      simp only [chunk_go, if_pos hst, if_neg he]
      exact List.mem_cons_of_mem _ hc

theorem chunk_go_fuel_enough {total s : Nat} (hs : 1 ≤ s) :
    total ≤ 0 + (total / s + 2) * s := by
  have h1 := Nat.div_add_mod total s
  have h2 : total % s < s := Nat.mod_lt _ (by omega)
  have h3 : (total / s + 2) * s = total / s * s + 2 * s := by ring
  have h4 : total / s * s = s * (total / s) := by ring
  omega

/-- Unfolding of the valid-parameter branch of `chunk_audio_samples`. -/
theorem chunk_audio_samples_ok {total ch ov : Nat} (hov : ov < ch) :
    chunk_audio_samples total ch ov =
      .ok (chunk_go total ch (ch - ov) (total / (ch - ov) + 2) 0) := by
  have h1 : ((ch : Int) - (ov : Int)) ≠ 0 := by omega
  have h2 : ¬ ((ch : Int) - (ov : Int) < 0) := by omega
  have h3 : ((ch : Int) - (ov : Int)).toNat = ch - ov := by omega
  simp only [chunk_audio_samples, if_neg h1, if_neg h2, h3]

/-- C3: Windower coverage.  For every `total_samples` and valid
`chunk_samples/overlap_samples` (`0 ≤ overlap_samples < chunk_samples`, i.e.
`stride > 0`), the union of the emitted sample ranges
`[startSample, endSample)` is exactly `[0, total_samples)` and no emitted
window has `startSample ≥ total_samples`; moreover a 300-second file at
16 kHz with `chunk_duration = 120` and `overlap_duration = 15` produces
exactly the three windows `[0,120)`, `[105,225)`, `[210,300)` seconds. -/
theorem windower_coverage :
    (∀ (total chunk_samples overlap_samples : Nat) (chunks : List Chunk),
        overlap_samples < chunk_samples →
        chunk_audio_samples total chunk_samples overlap_samples = .ok chunks →
        (∀ x : Nat, x < total ↔
          ∃ c ∈ chunks, c.startSample ≤ x ∧ x < c.endSample) ∧
        (∀ c ∈ chunks, c.startSample < total)) ∧
    chunk_audio 4800000 120 15 16000 =
      .ok [⟨0, 1920000⟩, ⟨1680000, 3600000⟩, ⟨3360000, 4800000⟩] ∧
    ([⟨0, 1920000⟩, ⟨1680000, 3600000⟩, ⟨3360000, 4800000⟩] : List Chunk).map
        (fun c => (c.start_time, c.end_time)) =
      [(0, 120), (105, 225), (210, 300)] := by
  refine ⟨?_, by with_unfolding_all rfl, ?_⟩
  · intro total ch ov chunks hov hok
    rw [chunk_audio_samples_ok hov] at hok
    obtain rfl : chunks = chunk_go total ch (ch - ov) (total / (ch - ov) + 2) 0 :=
      (Except.ok.injEq _ _).mp hok.symm
    constructor
    · intro x
      constructor
      · intro hx
        exact chunk_go_cover (by omega) (by omega) _ 0
          (chunk_go_fuel_enough (by omega)) x (Nat.zero_le _) hx
      · rintro ⟨c, hc, h1, h2⟩
        have := (chunk_go_mem hc).2.2
        have hle : c.endSample ≤ total := by
          rw [this]; exact min_le_right _ _
        omega
    · intro c hc
      exact (chunk_go_mem hc).2.1
  · simp only [List.map_cons, List.map_nil, Chunk.start_time, Chunk.end_time]
    norm_num

/-- Witness for C3 at concrete valid parameters: `total_samples = 5`,
`chunk_samples = 3`, `overlap_samples = 1`. -/
theorem windower_coverage_witness :
    (∀ x : Nat, x < 5 ↔
      ∃ c ∈ ([⟨0, 3⟩, ⟨2, 5⟩] : List Chunk),
        c.startSample ≤ x ∧ x < c.endSample) ∧
    (∀ c ∈ ([⟨0, 3⟩, ⟨2, 5⟩] : List Chunk), c.startSample < 5) :=
  windower_coverage.1 5 3 1 [⟨0, 3⟩, ⟨2, 5⟩] (by decide)
    (by with_unfolding_all rfl)

/-- C4 counterexample: for `total_samples = 0` (with the default
120 s / 15 s parameters at 16 kHz) the windower emits **zero** windows, not
one window covering the whole (empty) file. -/
theorem single_shot_cex :
    ¬ ∃ w : Chunk, chunk_audio_samples 0 1920000 240000 = .ok [w] := by
  rintro ⟨w, hw⟩
  rw [show chunk_audio_samples 0 1920000 240000 = .ok [] by
    with_unfolding_all rfl] at hw
  simp at hw

/-- C4 (amended): for every `total_samples` with
`1 ≤ total_samples ≤ chunk_samples` and valid overlap, the windower yields
exactly one window `[0, total_samples)`; for `total_samples = 0` it yields
no windows at all. -/
theorem single_shot_window :
    (∀ (total chunk_samples overlap_samples : Nat),
        1 ≤ total → total ≤ chunk_samples → overlap_samples < chunk_samples →
        chunk_audio_samples total chunk_samples overlap_samples =
          .ok [⟨0, total⟩]) ∧
    (∀ (chunk_samples overlap_samples : Nat),
        overlap_samples < chunk_samples →
        chunk_audio_samples 0 chunk_samples overlap_samples = .ok []) := by
  constructor
  · intro total ch ov h1 h2 hov
    rw [chunk_audio_samples_ok hov]
    have hfuel : ∃ f, total / (ch - ov) + 2 = f + 1 := ⟨total / (ch - ov) + 1, rfl⟩
    obtain ⟨f, hf⟩ := hfuel
    rw [hf]
    simp only [chunk_go, if_pos (by omega : 0 < total)]
    rw [if_pos (by omega : total ≤ min (0 + ch) total)]
    have : min (0 + ch) total = total := by omega
    rw [this]
  · intro ch ov hov
    rw [chunk_audio_samples_ok hov]
    have hfuel : ∃ f, (0 : Nat) / (ch - ov) + 2 = f + 1 := ⟨0 / (ch - ov) + 1, rfl⟩
    obtain ⟨f, hf⟩ := hfuel
    rw [hf]
    simp [chunk_go]

/-- Witness for C4 (amended): `total_samples = 5 ≤ chunk_samples = 10`,
`overlap_samples = 3`. -/
theorem single_shot_window_witness :
    chunk_audio_samples 5 10 3 = .ok [⟨0, 5⟩] ∧
    chunk_audio_samples 0 10 3 = .ok [] :=
  ⟨single_shot_window.1 5 10 3 (by decide) (by decide) (by decide),
   single_shot_window.2 10 3 (by decide)⟩

/-- C7 counterexample: with `chunk_samples = 16000` and
`overlap_samples = 32000` (overlap strictly greater than chunk, so
`stride < 0`), the windower does **not** fail: it silently returns an empty
window list. -/
theorem config_error_cex :
    chunk_audio_samples 16000 16000 32000 = .ok [] := by
  with_unfolding_all rfl

/-- C7 (amended): there is no parameter validation.  When
`stride = chunk_samples - overlap_samples < 0` the windower silently yields
an empty window list with no error; only when `stride = 0` does it fail,
with Python's `ValueError` from `range()` (not a dedicated `ConfigError`),
before producing any window. -/
theorem config_error_behavior :
    (∀ total chunk_samples overlap_samples : Nat,
        chunk_samples < overlap_samples →
        chunk_audio_samples total chunk_samples overlap_samples = .ok []) ∧
    (∀ total chunk_samples overlap_samples : Nat,
        chunk_samples = overlap_samples →
        chunk_audio_samples total chunk_samples overlap_samples =
          .error "ValueError: range() arg 3 must not be zero") := by
  constructor
  · intro total ch ov h
    have h1 : ((ch : Int) - (ov : Int)) ≠ 0 := by omega
    have h2 : ((ch : Int) - (ov : Int)) < 0 := by omega
    simp only [chunk_audio_samples, if_neg h1, if_pos h2]
  · intro total ch ov h
    have h1 : ((ch : Int) - (ov : Int)) = 0 := by omega
    simp only [chunk_audio_samples, if_pos h1]

/-- Witness for C7 (amended) at concrete parameters. -/
theorem config_error_behavior_witness :
    chunk_audio_samples 16000 16000 32000 = .ok [] ∧
    chunk_audio_samples 16000 16000 16000 =
      .error "ValueError: range() arg 3 must not be zero" :=
  ⟨config_error_behavior.1 16000 16000 32000 (by decide),
   config_error_behavior.2 16000 16000 16000 rfl⟩

/-! ### Lemmas about Python string stripping -/

theorem removeWS_dropWhile (l : List Char) :
    removeWS (l.dropWhile isPySpace) = removeWS l := by
  induction l with
  | nil => rfl
  | cons a t ih =>
    by_cases h : isPySpace a
    · rw [List.dropWhile_cons_of_pos h, ih]
      simp [removeWS, List.filter_cons, h]
    · rw [List.dropWhile_cons_of_neg h]

theorem removeWS_reverse (l : List Char) :
    removeWS l.reverse = (removeWS l).reverse := by
  simp [removeWS, List.filter_reverse]

theorem removeWS_stripList (l : List Char) :
    removeWS (pyStripList l) = removeWS l := by
  unfold pyStripList
  rw [removeWS_reverse, removeWS_dropWhile, removeWS_reverse,
    List.reverse_reverse, removeWS_dropWhile]

theorem removeWS_append (a b : List Char) :
    removeWS (a ++ b) = removeWS a ++ removeWS b := List.filter_append _ _

theorem mem_dropWhile_of_nonspace {c : Char} (hc : ¬ isPySpace c) :
    ∀ {l : List Char}, c ∈ l → c ∈ l.dropWhile isPySpace := by
  intro l
  induction l with
  | nil => intro h; exact absurd h (List.not_mem_nil c)
  | cons a t ih =>
    intro h
    by_cases ha : isPySpace a
    · rw [List.dropWhile_cons_of_pos ha]
      rcases List.mem_cons.mp h with rfl | h
      · exact absurd ha hc
      · exact ih h
    · rwa [List.dropWhile_cons_of_neg ha]

theorem mem_stripList_of_nonspace {c : Char} {l : List Char}
    (hc : ¬ isPySpace c) (h : c ∈ l) : c ∈ pyStripList l := by
  unfold pyStripList
  rw [List.mem_reverse]
  exact mem_dropWhile_of_nonspace hc (by
    rw [List.mem_reverse]
    exact mem_dropWhile_of_nonspace hc h)

theorem removeWS_eq_nil_of_strip_nil {l : List Char}
    (h : pyStripList l = []) : removeWS l = [] := by
  rw [← removeWS_stripList, h]; rfl

theorem stripList_nil_of_all_space {l : List Char}
    (h : ∀ c ∈ l, isPySpace c) : pyStripList l = [] := by
  have h1 : l.dropWhile isPySpace = [] := by
    rw [List.dropWhile_eq_nil_iff]
    exact h
  unfold pyStripList
  rw [h1]
  rfl

theorem exists_nonspace_of_strip_ne_nil {l : List Char}
    (h : pyStripList l ≠ []) : ∃ c ∈ l, ¬ isPySpace c := by
  by_contra hall
  push_neg at hall
  exact h (stripList_nil_of_all_space (fun c hc => by
    have := hall c hc
    simpa using this))

theorem strip_strip_ne_nil {l : List Char} (h : pyStripList l ≠ []) :
    pyStripList (pyStripList l) ≠ [] := by
  obtain ⟨c, hcl, hcs⟩ := exists_nonspace_of_strip_ne_nil h
  exact List.ne_nil_of_mem
    (mem_stripList_of_nonspace hcs (mem_stripList_of_nonspace hcs hcl))

/-! ### Lemmas about the Segmenter -/

theorem pyJoin_data_append (a b : List String) :
    (pyJoin (a ++ b)).data = (pyJoin a).data ++ (pyJoin b).data := by
  simp [pyJoin]

theorem pyJoin_data_singleton (t : String) : (pyJoin [t]).data = t.data := by
  simp [pyJoin]

theorem pyJoin_data_cons (t : String) (l : List String) :
    (pyJoin (t :: l)).data = t.data ++ (pyJoin l).data := by
  simp [pyJoin]

theorem pyStrip_data (s : String) : (pyStrip s).data = pyStripList s.data := rfl

theorem string_eq_empty_iff {s : String} : s = "" ↔ s.data = [] := by
  cases s with
  | mk d =>
    constructor
    · intro h
      rw [h]
    · intro h
      subst h
      rfl

/-- Step equation for a closing token (its stripped text ends the sentence,
or it is the last token). -/
theorem tts_go_close {L : Nat} {tss : List ℚ} {token : String} {ts : ℚ}
    {rest : List (String × ℚ)} {i : Nat} {cur : List String} {cst : ℚ}
    (h : (is_sentence_end token || decide (i = L - 1)) = true) :
    tts_go L tss ((token, ts) :: rest) i cur cst =
      (if pyStrip (pyJoin (cur ++ [token])) ≠ "" then
        [⟨pyStrip (pyJoin (cur ++ [token])), cst,
          match tss[i + 1]? with | some t => t | none => ts + 16 / 100⟩]
       else []) ++
      tts_go L tss rest (i + 1) []
        (match tss[i + 1]? with | some t => t | none => cst) := by
  simp only [tts_go]
  rw [if_pos h]

/-- Step equation for a non-closing token: it is appended to the buffer. -/
theorem tts_go_noclose {L : Nat} {tss : List ℚ} {token : String} {ts : ℚ}
    {rest : List (String × ℚ)} {i : Nat} {cur : List String} {cst : ℚ}
    (h : ¬ ((is_sentence_end token || decide (i = L - 1)) = true)) :
    tts_go L tss ((token, ts) :: rest) i cur cst =
      tts_go L tss rest (i + 1) (cur ++ [token]) cst := by
  simp only [tts_go]
  rw [if_neg h]

/-- Concatenating the emitted sentence texts reproduces, modulo whitespace,
the buffered prefix followed by the remaining token texts. -/
theorem tts_go_text_concat {L : Nat} {tss : List ℚ} :
    ∀ (rest : List (String × ℚ)) (i : Nat) (cur : List String) (cst : ℚ),
      i + rest.length = L →
      (rest = [] → cur = []) →
      removeWS (pyJoin ((tts_go L tss rest i cur cst).map Sentence.text)).data =
        removeWS (pyJoin cur).data ++
          removeWS (pyJoin (rest.map Prod.fst)).data := by
  intro rest
  induction rest with
  | nil =>
    intro i cur cst _ hcur
    rw [hcur rfl]
    simp [tts_go, pyJoin, removeWS]
  | cons p rest ih =>
    obtain ⟨token, ts⟩ := p
    intro i cur cst hlen hcur
    have hlen' : (i + 1) + rest.length = L := by
      simp only [List.length_cons] at hlen
      omega
    by_cases hclose : (is_sentence_end token || decide (i = L - 1)) = true
    · rw [tts_go_close hclose]
      have ihh := ih (i + 1) []
        (match tss[i + 1]? with | some t => t | none => cst) hlen' (fun _ => rfl)
      rw [List.map_append, pyJoin_data_append, removeWS_append, ihh]
      rw [List.map_cons, pyJoin_data_cons, removeWS_append]
      by_cases hemp : pyStrip (pyJoin (cur ++ [token])) ≠ ""
      · rw [if_pos hemp]
        simp only [List.map_cons, List.map_nil, pyJoin_data_singleton]
        have hst : removeWS (pyStrip (pyJoin (cur ++ [token]))).data =
            removeWS (pyJoin (cur ++ [token])).data := by
          rw [pyStrip_data, removeWS_stripList]
        rw [hst, pyJoin_data_append, removeWS_append, pyJoin_data_singleton]
        have h0 : removeWS (pyJoin ([] : List String)).data = [] := rfl
        rw [h0]
        simp [List.append_assoc]
      · rw [if_neg hemp]
        push_neg at hemp
        have hnil : removeWS (pyJoin (cur ++ [token])).data = [] := by
          have hd := string_eq_empty_iff.mp hemp
          rw [pyStrip_data] at hd
          exact removeWS_eq_nil_of_strip_nil hd
        rw [pyJoin_data_append, removeWS_append, pyJoin_data_singleton] at hnil
        have h0 : removeWS (pyJoin ([] : List String)).data = [] := rfl
        simp only [List.map_nil, pyJoin_data_singleton, h0]
        obtain ⟨h1, h2⟩ := List.append_eq_nil.mp hnil
        rw [h1, h2]
    · have hrest : rest ≠ [] := by
        intro hr
        subst hr
        simp only [List.length_nil] at hlen'
        have : i = L - 1 := by omega
        apply hclose
        simp [this]
      rw [tts_go_noclose hclose]
      rw [ih (i + 1) (cur ++ [token]) cst hlen' (fun hr => absurd hr hrest)]
      rw [pyJoin_data_append, removeWS_append, pyJoin_data_singleton,
        List.map_cons, pyJoin_data_cons, removeWS_append]
      simp [List.append_assoc]

/-- C6: segmentation round-trip.  For equal-length token/timestamp lists
containing at least one sentence-ending token, concatenating the emitted
sentence texts reproduces the concatenation of the token texts modulo
whitespace; and the empty input yields the empty sentence list. -/
theorem seg_round_trip :
    (∀ (tokens : List String) (timestamps : List ℚ),
        tokens.length = timestamps.length →
        (∃ t ∈ tokens, is_sentence_end t = true) →
        removeWS (pyJoin ((tokens_to_sentences tokens timestamps).map
          Sentence.text)).data = removeWS (pyJoin tokens).data) ∧
    tokens_to_sentences [] [] = [] := by
  constructor
  · intro tokens tss hlen hpunct
    have htok : tokens ≠ [] := by
      rintro rfl
      obtain ⟨t, ht, _⟩ := hpunct
      exact absurd ht (List.not_mem_nil t)
    have htss : tss ≠ [] := by
      intro h
      subst h
      simp only [List.length_nil] at hlen
      exact htok (List.length_eq_zero.mp hlen)
    have hcond : (tokens.isEmpty || tss.isEmpty) = false := by
      simp [List.isEmpty_eq_false, htok, htss]
    rw [tokens_to_sentences, if_neg (by simp [hcond])]
    have hzlen : 0 + (tokens.zip tss).length = tokens.length := by
      rw [List.length_zip, hlen, Nat.min_self]
      omega
    rw [tts_go_text_concat (tokens.zip tss) 0 [] (tss.headD 0) hzlen
      (fun _ => rfl)]
    rw [List.map_fst_zip tokens tss (le_of_eq hlen)]
    rfl
  · rfl

/-- Witness for C6 at the concrete input
`["Hello", " world."]` / `[0, 1/2]`. -/
theorem seg_round_trip_witness :
    removeWS (pyJoin ((tokens_to_sentences ["Hello", " world."]
      [0, 1/2]).map Sentence.text)).data =
      removeWS (pyJoin ["Hello", " world."]).data :=
  seg_round_trip.1 ["Hello", " world."] [0, 1/2] (by decide)
    ⟨" world.", by decide, by decide⟩

theorem tts_go_strip_ne {L : Nat} {tss : List ℚ} :
    ∀ (rest : List (String × ℚ)) (i : Nat) (cur : List String) (cst : ℚ),
      ∀ s ∈ tts_go L tss rest i cur cst, pyStrip s.text ≠ "" := by
  intro rest
  induction rest with
  | nil => intro i cur cst s hs; simp [tts_go] at hs
  | cons p rest ih =>
    obtain ⟨token, ts⟩ := p
    intro i cur cst s hs
    by_cases hclose : (is_sentence_end token || decide (i = L - 1)) = true
    · rw [tts_go_close hclose] at hs
      rcases List.mem_append.mp hs with hmem | hmem
      · by_cases hemp : pyStrip (pyJoin (cur ++ [token])) ≠ ""
        · rw [if_pos hemp] at hmem
          simp only [List.mem_singleton] at hmem
          subst hmem
          intro hcontra
          apply strip_strip_ne_nil
            (l := (pyJoin (cur ++ [token])).data)
          · intro hnil
            apply hemp
            rw [string_eq_empty_iff, pyStrip_data]
            exact hnil
          · rw [string_eq_empty_iff, pyStrip_data] at hcontra
            rw [← pyStrip_data]
            exact hcontra
        · rw [if_neg hemp] at hmem
          exact absurd hmem (List.not_mem_nil s)
      · exact ih _ _ _ s hmem
    · rw [tts_go_noclose hclose] at hs
      exact ih _ _ _ s hs

/-- C10: every emitted sentence has text that is non-empty after stripping;
and a closing step whose buffered text strips to empty emits nothing while
still resetting the buffer and the next sentence start. -/
theorem nonempty_sentence_invariant :
    (∀ (tokens : List String) (timestamps : List ℚ),
        ∀ s ∈ tokens_to_sentences tokens timestamps, pyStrip s.text ≠ "") ∧
    (∀ (L : Nat) (tss : List ℚ) (token : String) (ts : ℚ)
        (rest : List (String × ℚ)) (i : Nat) (cur : List String) (cst : ℚ),
        (is_sentence_end token || decide (i = L - 1)) = true →
        pyStrip (pyJoin (cur ++ [token])) = "" →
        tts_go L tss ((token, ts) :: rest) i cur cst =
          tts_go L tss rest (i + 1) []
            (match tss[i + 1]? with | some t => t | none => cst)) := by
  constructor
  · intro tokens tss s hs
    rw [tokens_to_sentences] at hs
    by_cases hc : (tokens.isEmpty || tss.isEmpty) = true
    · rw [if_pos hc] at hs
      exact absurd hs (List.not_mem_nil s)
    · rw [if_neg hc] at hs
      exact tts_go_strip_ne _ _ _ _ s hs
  · intro L tss token ts rest i cur cst hclose hemp
    rw [tts_go_close hclose, if_neg (by simp [hemp])]
    rfl

/-- Witness for C10: a concrete emitted sentence has non-empty stripped
text, and a whitespace-only closing buffer emits nothing while resetting. -/
theorem nonempty_sentence_invariant_witness :
    pyStrip (Sentence.mk "hi." 0 (16/100)).text ≠ "" ∧
    tts_go 1 [0] [(" ", 0)] 0 [] 0 = tts_go 1 [0] [] 1 [] 0 :=
  ⟨nonempty_sentence_invariant.1 ["hi."] [0] ⟨"hi.", 0, 16/100⟩
      (by with_unfolding_all decide),
   nonempty_sentence_invariant.2 1 [0] " " 0 [] 0 [] 0 (by decide)
      (by decide)⟩

theorem tts_go_end_spec {toks : List String} {tss : List ℚ} :
    ∀ (rest : List (String × ℚ)) (i : Nat) (cur : List String) (cst : ℚ),
      rest = (toks.zip tss).drop i →
      ∀ s ∈ tts_go toks.length tss rest i cur cst,
        ∃ j : Nat, i ≤ j ∧ j < toks.length ∧
          (is_sentence_end (toks.getD j "") = true ∨ j = toks.length - 1) ∧
          s.stop = (match tss[j + 1]? with
                    | some t => t
                    | none => tss.getD j 0 + 16 / 100) := by
  intro rest
  induction rest with
  | nil => intro i cur cst _ s hs; simp [tts_go] at hs
  | cons p rest ih =>
    obtain ⟨token, ts⟩ := p
    intro i cur cst hdrop s hs
    have hhead : (toks.zip tss)[i]? = some (token, ts) := by
      rw [← List.head?_drop, ← hdrop]
      rfl
    have htok : toks[i]? = some token ∧ tss[i]? = some ts := by
      have := List.getElem?_zip_eq_some.mp hhead
      exact this
    have hi : i < toks.length := by
      have := List.getElem?_eq_some.mp htok.1
      exact this.1
    have hrest : rest = (toks.zip tss).drop (i + 1) := by
      have h1 : ((toks.zip tss).drop i).tail = (toks.zip tss).drop (i + 1) := by
        rw [← List.drop_one, List.drop_drop, Nat.add_comm]
      rw [← h1, ← hdrop]
      rfl
    by_cases hclose : (is_sentence_end token || decide (i = toks.length - 1)) = true
    · rw [tts_go_close hclose] at hs
      rcases List.mem_append.mp hs with hmem | hmem
      · by_cases hemp : pyStrip (pyJoin (cur ++ [token])) ≠ ""
        · rw [if_pos hemp] at hmem
          simp only [List.mem_singleton] at hmem
          subst hmem
          refine ⟨i, le_refl i, hi, ?_, ?_⟩
          · rcases Bool.or_eq_true_iff.mp hclose with hc | hc
            · left
              have : toks.getD i "" = token := by
                rw [List.getD_eq_getElem?_getD, htok.1]
                rfl
              rw [this]
              exact hc
            · right
              exact of_decide_eq_true hc
          · show (match tss[i + 1]? with
              | some t => t
              | none => ts + 16 / 100) = _
            have : tss.getD i 0 = ts := by
              rw [List.getD_eq_getElem?_getD, htok.2]
              rfl
            rw [this]
        · rw [if_neg hemp] at hmem
          exact absurd hmem (List.not_mem_nil s)
      · obtain ⟨j, hj1, hj2, hj3, hj4⟩ := ih (i + 1) [] _ hrest s hmem
        exact ⟨j, by omega, hj2, hj3, hj4⟩
    · rw [tts_go_noclose hclose] at hs
      obtain ⟨j, hj1, hj2, hj3, hj4⟩ := ih (i + 1) _ _ hrest s hs
      exact ⟨j, by omega, hj2, hj3, hj4⟩

/-- C5: each emitted sentence closes at some token index `j` (a
sentence-ending token or the final token), and its `end` is the timestamp of
the token immediately after `j` when one exists, else the closing token's
timestamp plus the fixed 0.16 s estimate; in particular
`["Hello", " world."]` with timestamps `[0, 0.5]` yields exactly the single
sentence `{text := "Hello world.", start := 0, end := 0.66}`. -/
theorem sentence_end_rule :
    (∀ (tokens : List String) (timestamps : List ℚ),
        tokens.length = timestamps.length →
        ∀ s ∈ tokens_to_sentences tokens timestamps,
          ∃ j : Nat, j < tokens.length ∧
            (is_sentence_end (tokens.getD j "") = true ∨
              j = tokens.length - 1) ∧
            s.stop = (match timestamps[j + 1]? with
                      | some t => t
                      | none => timestamps.getD j 0 + 16 / 100)) ∧
    tokens_to_sentences ["Hello", " world."] [0, 1/2] =
      [⟨"Hello world.", 0, 66/100⟩] := by
  constructor
  · intro tokens tss _hlen s hs
    rw [tokens_to_sentences] at hs
    by_cases hc : (tokens.isEmpty || tss.isEmpty) = true
    · rw [if_pos hc] at hs
      exact absurd hs (List.not_mem_nil s)
    · rw [if_neg hc] at hs
      obtain ⟨j, _, hj2, hj3, hj4⟩ :=
        @tts_go_end_spec tokens tss (tokens.zip tss) 0 []
          (tss.headD 0) (List.drop_zero _).symm s hs
      exact ⟨j, hj2, hj3, hj4⟩
  · with_unfolding_all decide

/-- Witness for C5 at the scenario input. -/
theorem sentence_end_rule_witness :
    ∃ j : Nat, j < 2 ∧
      (is_sentence_end ((["Hello", " world."] : List String).getD j "") = true ∨
        j = 1) ∧
      (Sentence.mk "Hello world." 0 (66/100)).stop =
        (match ([0, 1/2] : List ℚ)[j + 1]? with
         | some t => t
         | none => ([0, 1/2] : List ℚ).getD j 0 + 16 / 100) := by
  have h := sentence_end_rule.1 ["Hello", " world."] [0, 1/2] (by decide)
    ⟨"Hello world.", 0, 66/100⟩
    (by rw [sentence_end_rule.2]; exact List.mem_singleton.mpr rfl)
  simpa using h

/-! ### Lemmas about the Stitcher -/

theorem filter_overlap_eq (oe lp : ℚ) (l : List (String × ℚ)) :
    filter_overlap oe lp l =
      ((l.filter (fun p => oe ≤ p.2 || lp < p.2)).map Prod.fst,
       (l.filter (fun p => oe ≤ p.2 || lp < p.2)).map Prod.snd) := by
  induction l with
  | nil => rfl
  | cons p t ih =>
    obtain ⟨tok, ts⟩ := p
    simp only [filter_overlap, List.filter_cons]
    by_cases h : (decide (oe ≤ ts) || decide (lp < ts)) = true
    · rw [if_pos h, ih]
      simp only [h, if_pos]
      simp
    · rw [if_neg h, ih]
      simp only [h]
      simp

/-- C1: the Stitcher's admission rule.  For a window of index `i > 0` merged
into a non-empty stream, the appended tokens are exactly those whose shifted
timestamp `ts` satisfies `ts > last_prev_time` (the last timestamp appended
so far) or `ts ≥ chunk_start + overlap_time`; for window index `0` (and for
an empty stream) every token is appended unconditionally. -/
theorem stitcher_admission :
    (∀ (overlap_time : ℚ) (i : Nat) (chunk_start : ℚ)
        (st : List String × List ℚ) (tokens : List String)
        (timestamps : List ℚ),
        0 < i → st.2 ≠ [] →
        merge_chunk overlap_time i chunk_start st tokens timestamps =
          (st.1 ++ ((tokens.zip (timestamps.map (· + chunk_start))).filter
              (fun p => st.2.getLastD 0 < p.2 ||
                chunk_start + overlap_time ≤ p.2)).map Prod.fst,
           st.2 ++ ((tokens.zip (timestamps.map (· + chunk_start))).filter
              (fun p => st.2.getLastD 0 < p.2 ||
                chunk_start + overlap_time ≤ p.2)).map Prod.snd)) ∧
    (∀ (overlap_time : ℚ) (chunk_start : ℚ) (st : List String × List ℚ)
        (tokens : List String) (timestamps : List ℚ),
        merge_chunk overlap_time 0 chunk_start st tokens timestamps =
          (st.1 ++ tokens, st.2 ++ timestamps.map (· + chunk_start))) := by
  constructor
  · intro ov i cs st tokens tss hi hst
    have hcomm : (fun p : String × ℚ =>
        decide (st.2.getLastD 0 < p.2) || decide (cs + ov ≤ p.2)) =
        (fun p : String × ℚ =>
          decide (cs + ov ≤ p.2) || decide (st.2.getLastD 0 < p.2)) := by
      funext p
      exact Bool.or_comm _ _
    rw [merge_chunk, if_pos ⟨hi, hst⟩]
    simp only [filter_overlap_eq]
    rw [hcomm]
  · intro ov cs st tokens tss
    rw [merge_chunk]
    rw [if_neg (by simp)]

/-- Witness for C1: a concrete filtered merge (`i = 1`, non-empty stream)
and a concrete unconditional merge (`i = 0`), both evaluated. -/
theorem stitcher_admission_witness :
    merge_chunk 15 1 105 (["a"], [100]) ["b", "c"] [10, 20] =
      (["a", "b", "c"], [100, 115, 125]) ∧
    merge_chunk 15 0 105 (["a"], [100]) ["b", "c"] [10, 20] =
      (["a", "b", "c"], [100, 115, 125]) :=
  ⟨(stitcher_admission.1 15 1 105 (["a"], [100]) ["b", "c"] [10, 20]
      (by decide) (by decide)).trans (by with_unfolding_all decide),
   (stitcher_admission.2 15 105 (["a"], [100]) ["b", "c"] [10, 20]).trans
      (by with_unfolding_all decide)⟩

/-- C8 counterexample: a run in which the first window's result has two
tokens but three timestamps does not abort with any error: the pipeline
silently truncates via `zip` and returns ordinary sentences (the third
timestamp of window 0 even leaks into the last sentence's end time). -/
theorem malformed_result_cex :
    transcribe_chunked
      (([⟨0, 1920000⟩, ⟨1680000, 3600000⟩, ⟨3360000, 4800000⟩] :
          List Chunk).zip
        [(["Hi.", " you."], [0, 1, 2]), (["ok."], [10]), ([], [])]) =
      [⟨"Hi.", 0, 1⟩, ⟨"you.", 1, 2⟩, ⟨"ok.", 2, 115⟩] ∧
    (["Hi.", " you."] : List String).length ≠ ([0, 1, 2] : List ℚ).length :=
  ⟨by with_unfolding_all decide, by decide⟩

theorem zip_eq_zip_take {α β : Type _} :
    ∀ (l₁ : List α) (l₂ : List β),
      l₁.zip l₂ = (l₁.take (min l₁.length l₂.length)).zip
        (l₂.take (min l₁.length l₂.length)) := by
  intro l₁
  induction l₁ with
  | nil => intro l₂; simp
  | cons a t ih =>
    intro l₂
    cases l₂ with
    | nil => simp
    | cons b u =>
      simp only [List.length_cons]
      have hmin : min (t.length + 1) (u.length + 1) = min t.length u.length + 1 := by
        omega
      rw [hmin, List.take_succ_cons, List.take_succ_cons,
        List.zip_cons_cons, List.zip_cons_cons, ← ih]

/-- C8 (amended): a mismatched token/timestamp pair never raises an error;
in an overlap-filtered window the merge consumes exactly the first
`min (len tokens) (len timestamps)` pairs — the excess of the longer list is
silently dropped by `zip` — and the pipeline returns ordinary output. -/
theorem malformed_result_truncation :
    ∀ (overlap_time : ℚ) (i : Nat) (chunk_start : ℚ)
      (st : List String × List ℚ) (tokens : List String)
      (timestamps : List ℚ),
      0 < i → st.2 ≠ [] →
      merge_chunk overlap_time i chunk_start st tokens timestamps =
        merge_chunk overlap_time i chunk_start st
          (tokens.take (min tokens.length timestamps.length))
          (timestamps.take (min tokens.length timestamps.length)) := by
  intro ov i cs st tokens tss hi hst
  rw [merge_chunk, merge_chunk, if_pos ⟨hi, hst⟩, if_pos ⟨hi, hst⟩]
  have hzip : tokens.zip (tss.map (fun ts => ts + cs)) =
      (tokens.take (min tokens.length tss.length)).zip
        (((tss.take (min tokens.length tss.length))).map
          (fun ts => ts + cs)) := by
    rw [zip_eq_zip_take tokens (tss.map (fun ts => ts + cs)),
      List.length_map, ← List.map_take]
  rw [hzip]

/-- Witness for C8 (amended): concrete mismatched window (`1` token,
`2` timestamps). -/
theorem malformed_result_truncation_witness :
    merge_chunk 15 1 105 (["a"], [5]) ["b"] [10, 20] =
      merge_chunk 15 1 105 (["a"], [5]) (["b"].take 1) ([10, 20].take 1) :=
  malformed_result_truncation 15 1 105 (["a"], [5]) ["b"] [10, 20]
    (by decide) (by decide)

/-- C9 counterexample: the plain-text short path does not split
`"Hi there. How are you?"` into two sentences; it returns the whole text as
a single sentence spanning `(0, total_duration)`. -/
theorem plain_text_cex :
    transcribe_short (.plainText "Hi there. How are you?") 5 =
      [⟨"Hi there. How are you?", 0, 5⟩] ∧
    (transcribe_short (.plainText "Hi there. How are you?") 5).map
        Sentence.text ≠ ["Hi there.", "How are you?"] :=
  ⟨rfl, by decide⟩

/-- C9 (amended): a recognition result without token-level timestamps is
returned as exactly one sentence carrying the entire text with the fallback
span `(0, total_duration)`; no punctuation-based splitting is performed. -/
theorem plain_text_single_sentence :
    ∀ (text : String) (duration : ℚ),
      transcribe_short (.plainText text) duration = [⟨text, 0, duration⟩] :=
  fun _ _ => rfl

/-! ### Monotonicity of the stitched stream -/

theorem pairwise_le_getLastD :
    ∀ {l : List ℚ}, l.Pairwise (· ≤ ·) → ∀ {a : ℚ}, a ∈ l →
      a ≤ l.getLastD 0 := by
  intro l
  induction l with
  | nil => intro _ a ha; cases ha
  | cons x t ih =>
    intro hl a ha
    obtain ⟨hx, ht⟩ := List.pairwise_cons.mp hl
    cases t with
    | nil =>
      rcases List.mem_cons.mp ha with rfl | h
      · exact le_refl _
      · cases h
    | cons y u =>
      have hgl : (x :: y :: u).getLastD 0 = (y :: u).getLastD 0 := by
        simp [List.getLastD_eq_getLast?]
      rcases List.mem_cons.mp ha with rfl | h
      · rw [hgl]
        have hmem : (y :: u).getLastD 0 ∈ (y :: u) := by
          have h1 := List.getLastD_mem_cons u y
          have h2 : (y :: u).getLastD 0 = u.getLastD y := by
            simp [List.getLastD_eq_getLast?, List.getLast?_cons]
          rw [h2]
          exact h1
        exact hx _ hmem
      · rw [hgl]
        exact ih ht h

theorem map_fst_zip_sublist {α β : Type _} :
    ∀ (l₁ : List α) (l₂ : List β),
      List.Sublist ((l₁.zip l₂).map Prod.fst) l₁ := by
  intro l₁
  induction l₁ with
  | nil => intro l₂; simp
  | cons a t ih =>
    intro l₂
    cases l₂ with
    | nil => simp
    | cons b u =>
      rw [List.zip_cons_cons, List.map_cons]
      exact List.Sublist.cons₂ a (ih u)

theorem map_snd_zip_sublist {α β : Type _} :
    ∀ (l₁ : List α) (l₂ : List β),
      List.Sublist ((l₁.zip l₂).map Prod.snd) l₂ := by
  intro l₁
  induction l₁ with
  | nil => intro l₂; simp
  | cons a t ih =>
    intro l₂
    cases l₂ with
    | nil => simp
    | cons b u =>
      rw [List.zip_cons_cons, List.map_cons]
      exact List.Sublist.cons₂ b (ih u)

theorem pairwise_zip_left {α β : Type _} {R : α → α → Prop} {l₁ : List α}
    {l₂ : List β} (h : l₁.Pairwise R) :
    (l₁.zip l₂).Pairwise (fun a b => R a.1 b.1) := by
  have h2 : ((l₁.zip l₂).map Prod.fst).Pairwise R :=
    h.sublist (map_fst_zip_sublist l₁ l₂)
  rwa [List.pairwise_map] at h2

theorem chunk_go_pairwise {total ch s ov : Nat} (hch : ch = s + ov) :
    ∀ (fuel start : Nat),
      (chunk_go total ch s fuel start).Pairwise
        (fun a b => a.endSample ≤ b.startSample + ov ∧
          a.startSample ≤ b.startSample) := by
  intro fuel
  induction fuel with
  | zero => intro start; simp [chunk_go]
  | succ f ih =>
    intro start
    simp only [chunk_go]
    by_cases hs : start < total
    · rw [if_pos hs]
      by_cases he : total ≤ min (start + ch) total
      · rw [if_pos he]
        exact List.pairwise_singleton _ _
      · rw [if_neg he]
        refine List.Pairwise.cons ?_ (ih (start + s))
        intro b hb
        obtain ⟨h1, _, _⟩ := chunk_go_mem hb
        have hmin : min (start + ch) total = start + ch := by
          rcases le_total (start + ch) total with hc | hc
          · exact min_eq_left hc
          · have := min_eq_right hc
            omega
        refine ⟨?_, ?_⟩
        · show min (start + ch) total ≤ b.startSample + ov
          rw [hmin]
          omega
        · show start ≤ b.startSample
          omega
    · rw [if_neg hs]
      exact List.Pairwise.nil

/-- Geometry of the emitted windows, on the global (seconds) timeline: each
window ends no later than the next window's overlap boundary, and window
start times are monotone. -/
theorem chunk_pairwise_time {total ch ov : Nat} (hov : ov < ch)
    {chunks : List Chunk}
    (hok : chunk_audio_samples total ch ov = .ok chunks) :
    chunks.Pairwise (fun a b =>
      a.end_time ≤ b.start_time + (ov : ℚ) / 16000 ∧
      a.start_time ≤ b.start_time) := by
  rw [chunk_audio_samples_ok hov] at hok
  obtain rfl : chunks = chunk_go total ch (ch - ov) (total / (ch - ov) + 2) 0 :=
    (Except.ok.injEq _ _).mp hok.symm
  have hs := @chunk_go_pairwise total ch (ch - ov) ov
    (by omega) (total / (ch - ov) + 2) 0
  refine hs.imp ?_
  rintro a b ⟨h1, h2⟩
  have h16 : (0 : ℚ) < 16000 := by norm_num
  constructor
  · rw [Chunk.end_time, Chunk.start_time, div_add_div_same]
    rw [div_le_div_iff_of_pos_right h16]
    exact_mod_cast h1
  · rw [Chunk.start_time, Chunk.start_time]
    rw [div_le_div_iff_of_pos_right h16]
    exact_mod_cast h2

/-- Invariant of the stitching fold: starting from a sorted stream whose
entries all lie below every remaining window's overlap boundary, merging the
remaining windows (their local timestamps sorted and bounded by the window
length, the windows in overlap-chained order) keeps the stream sorted. -/
theorem stitch_go_pairwise (ov : ℚ) :
    ∀ (inputs : List ChunkResult) (i : Nat) (st : List String × List ℚ),
      1 ≤ i →
      st.2.Pairwise (· ≤ ·) →
      (∀ x ∈ inputs, x.2.2.Pairwise (· ≤ ·)) →
      (∀ x ∈ inputs, ∀ t ∈ x.2.2, t + x.1.start_time ≤ x.1.end_time) →
      inputs.Pairwise (fun a b => a.1.end_time ≤ b.1.start_time + ov ∧
        a.1.start_time ≤ b.1.start_time) →
      (∀ t ∈ st.2, ∀ x ∈ inputs, t ≤ x.1.start_time + ov) →
      ((List.enumFrom i inputs).foldl (stitch_step ov) st).2.Pairwise
        (· ≤ ·) := by
  intro inputs
  induction inputs with
  | nil =>
    intro i st _ hst _ _ _ _
    simpa [List.enumFrom] using hst
  | cons x xs ih =>
    intro i st hi hst hsort hbound hpair hlink
    rw [show List.enumFrom i (x :: xs) = (i, x) :: List.enumFrom (i + 1) xs
      from rfl]
    rw [List.foldl_cons]
    obtain ⟨hpair_head, hpair_tail⟩ := List.pairwise_cons.mp hpair
    have hx_sorted := hsort x (List.mem_cons_self x xs)
    have hx_bound := hbound x (List.mem_cons_self x xs)
    have hadj_sorted : (x.2.2.map (fun t => t + x.1.start_time)).Pairwise
        (· ≤ ·) :=
      hx_sorted.map _ (fun a b hab => add_le_add_right hab x.1.start_time)
    have hadj_le : ∀ b ∈ x.2.2.map (fun t => t + x.1.start_time),
        ∀ y ∈ xs, b ≤ y.1.start_time + ov := by
      intro b hb y hy
      obtain ⟨loc, hloc, rfl⟩ := List.mem_map.mp hb
      calc loc + x.1.start_time ≤ x.1.end_time := hx_bound loc hloc
        _ ≤ y.1.start_time + ov := (hpair_head y hy).1
    by_cases hst2 : st.2 = []
    · have hstep : stitch_step ov st (i, x) =
          (st.1 ++ x.2.1, st.2 ++ x.2.2.map (fun t => t + x.1.start_time)) := by
        rw [stitch_step, merge_chunk, if_neg (by simp [hst2])]
      rw [hstep]
      apply ih (i + 1) _ (by omega)
      · show (st.2 ++ x.2.2.map (fun t => t + x.1.start_time)).Pairwise (· ≤ ·)
        rw [hst2, List.nil_append]
        exact hadj_sorted
      · intro y hy
        exact hsort y (List.mem_cons_of_mem _ hy)
      · intro y hy
        exact hbound y (List.mem_cons_of_mem _ hy)
      · exact hpair_tail
      · intro t ht y hy
        rw [hst2, List.nil_append] at ht
        exact hadj_le t ht y hy
    · have hcond : 0 < i ∧ st.2 ≠ [] := ⟨by omega, hst2⟩
      have hstep : stitch_step ov st (i, x) =
          (st.1 ++ ((x.2.1.zip (x.2.2.map (fun t => t + x.1.start_time))).filter
              (fun p => x.1.start_time + ov ≤ p.2 ||
                st.2.getLastD 0 < p.2)).map Prod.fst,
           st.2 ++ ((x.2.1.zip (x.2.2.map (fun t => t + x.1.start_time))).filter
              (fun p => x.1.start_time + ov ≤ p.2 ||
                st.2.getLastD 0 < p.2)).map Prod.snd) := by
        rw [stitch_step, merge_chunk, if_pos hcond]
        simp only [filter_overlap_eq]
      rw [hstep]
      have hF2_sub : List.Sublist
          (((x.2.1.zip (x.2.2.map (fun t => t + x.1.start_time))).filter
            (fun p => x.1.start_time + ov ≤ p.2 ||
              st.2.getLastD 0 < p.2)).map Prod.snd)
          (x.2.2.map (fun t => t + x.1.start_time)) := by
        have h1 := (List.filter_sublist
          (x.2.1.zip (x.2.2.map (fun t => t + x.1.start_time)))
          (p := fun p => x.1.start_time + ov ≤ p.2 || st.2.getLastD 0 < p.2))
        exact (h1.map Prod.snd).trans (map_snd_zip_sublist _ _)
      have hF2_sorted := hadj_sorted.sublist hF2_sub
      have hF2_cond : ∀ b ∈ ((x.2.1.zip
          (x.2.2.map (fun t => t + x.1.start_time))).filter
            (fun p => x.1.start_time + ov ≤ p.2 ||
              st.2.getLastD 0 < p.2)).map Prod.snd,
          x.1.start_time + ov ≤ b ∨ st.2.getLastD 0 < b := by
        intro b hb
        obtain ⟨p, hp, rfl⟩ := List.mem_map.mp hb
        have hmf := (List.mem_filter.mp hp).2
        rcases Bool.or_eq_true_iff.mp hmf with h | h
        · exact Or.inl (of_decide_eq_true h)
        · exact Or.inr (of_decide_eq_true h)
      have hst'_pair : (st.2 ++ ((x.2.1.zip
          (x.2.2.map (fun t => t + x.1.start_time))).filter
            (fun p => x.1.start_time + ov ≤ p.2 ||
              st.2.getLastD 0 < p.2)).map Prod.snd).Pairwise (· ≤ ·) := by
        rw [List.pairwise_append]
        refine ⟨hst, hF2_sorted, ?_⟩
        intro a ha b hb
        rcases hF2_cond b hb with h | h
        · calc a ≤ x.1.start_time + ov :=
                hlink a ha x (List.mem_cons_self x xs)
            _ ≤ b := h
        · calc a ≤ st.2.getLastD 0 := pairwise_le_getLastD hst ha
            _ ≤ b := le_of_lt h
      apply ih (i + 1) _ (by omega) hst'_pair
      · intro y hy
        exact hsort y (List.mem_cons_of_mem _ hy)
      · intro y hy
        exact hbound y (List.mem_cons_of_mem _ hy)
      · exact hpair_tail
      · intro t ht y hy
        rcases List.mem_append.mp ht with h | h
        · exact hlink t h y (List.mem_cons_of_mem _ hy)
        · exact hadj_le t (hF2_sub.subset h) y hy

/-- C2 counterexample: with the windows the Windower produces for a
300-second file (default 120 s / 15 s parameters) and per-window token lists
whose local timestamps are non-decreasing — but where window 0 reports a
timestamp far beyond its own window — the stitched stream is **not**
non-decreasing: condition (b) of the admission rule accepts a later window's
token that lies before the stream's tail. -/
theorem stitch_monotone_cex :
    chunk_audio 4800000 120 15 16000 =
      .ok [⟨0, 1920000⟩, ⟨1680000, 3600000⟩, ⟨3360000, 4800000⟩] ∧
    (∀ o ∈ [((["a"], [(1000 : ℚ)]) : List String × List ℚ),
        (["b"], [20]), ([], [])], o.2.Pairwise (· ≤ ·)) ∧
    ¬ ((stitch 15 (([⟨0, 1920000⟩, ⟨1680000, 3600000⟩, ⟨3360000, 4800000⟩] :
          List Chunk).zip
        [(["a"], [1000]), (["b"], [20]), ([], [])])).2).Pairwise (· ≤ ·) :=
  ⟨by with_unfolding_all rfl, by with_unfolding_all decide,
   by with_unfolding_all decide⟩

/-- C2 (amended): stitch monotonicity holds under the additional (implicit
in the data model) hypothesis that each window's local timestamps do not
exceed the window's own duration: for windows produced by the windower with
valid parameters and any such per-window results, the merged global
timestamp stream is non-decreasing. -/
theorem stitch_monotone :
    ∀ (total chunk_samples overlap_samples : Nat) (chunks : List Chunk)
      (outs : List (List String × List ℚ)),
      overlap_samples < chunk_samples →
      chunk_audio_samples total chunk_samples overlap_samples = .ok chunks →
      (∀ o ∈ outs, o.2.Pairwise (· ≤ ·)) →
      (∀ x ∈ chunks.zip outs, ∀ t ∈ x.2.2,
          t ≤ x.1.end_time - x.1.start_time) →
      ((stitch ((overlap_samples : ℚ) / 16000) (chunks.zip outs)).2).Pairwise
        (· ≤ ·) := by
  intro total ch ov chunks outs hov hok hsort hbound
  have hpair : (chunks.zip outs).Pairwise
      (fun a b => a.1.end_time ≤ b.1.start_time + (ov : ℚ) / 16000 ∧
        a.1.start_time ≤ b.1.start_time) :=
    pairwise_zip_left (chunk_pairwise_time hov hok)
  have hsort' : ∀ x ∈ chunks.zip outs, x.2.2.Pairwise (· ≤ ·) := by
    intro xx hx
    exact hsort xx.2 (List.of_mem_zip hx).2
  have hbound' : ∀ x ∈ chunks.zip outs, ∀ t ∈ x.2.2,
      t + x.1.start_time ≤ x.1.end_time := by
    intro xx hx t ht
    exact le_sub_iff_add_le.mp (hbound xx hx t ht)
  rw [stitch]
  cases hz : chunks.zip outs with
  | nil => exact List.Pairwise.nil
  | cons x xs =>
    rw [hz] at hpair hsort' hbound'
    rw [show List.enum (x :: xs) = (0, x) :: List.enumFrom 1 xs from rfl]
    rw [List.foldl_cons]
    have hstep : stitch_step ((ov : ℚ) / 16000) ([], []) (0, x) =
        ([] ++ x.2.1, [] ++ x.2.2.map (fun t => t + x.1.start_time)) := by
      rw [stitch_step, merge_chunk, if_neg (by simp)]
    rw [hstep]
    obtain ⟨hph, hpt⟩ := List.pairwise_cons.mp hpair
    apply stitch_go_pairwise _ xs 1 _ (le_refl 1)
    · show ([] ++ x.2.2.map (fun t => t + x.1.start_time)).Pairwise (· ≤ ·)
      rw [List.nil_append]
      exact (hsort' x (List.mem_cons_self x xs)).map _
        (fun a b hab => add_le_add_right hab _)
    · intro y hy
      exact hsort' y (List.mem_cons_of_mem _ hy)
    · intro y hy
      exact hbound' y (List.mem_cons_of_mem _ hy)
    · exact hpt
    · intro t ht y hy
      rw [List.nil_append] at ht
      obtain ⟨loc, hloc, rfl⟩ := List.mem_map.mp ht
      calc loc + x.1.start_time ≤ x.1.end_time :=
            hbound' x (List.mem_cons_self x xs) loc hloc
        _ ≤ y.1.start_time + (ov : ℚ) / 16000 := (hph y hy).1

/-- Witness for C2 (amended): a 30-second file at 16 kHz, 12 s chunks with
1.5 s overlap, with bounded sorted per-window results. -/
theorem stitch_monotone_witness :
    ((stitch ((24000 : ℚ) / 16000)
      (([⟨0, 192000⟩, ⟨168000, 360000⟩, ⟨336000, 480000⟩] : List Chunk).zip
        [(["a"], [1]), (["b"], [2]), ([], [])])).2).Pairwise (· ≤ ·) :=
  stitch_monotone 480000 192000 24000
    [⟨0, 192000⟩, ⟨168000, 360000⟩, ⟨336000, 480000⟩]
    [(["a"], [1]), (["b"], [2]), ([], [])]
    (by decide) (by with_unfolding_all rfl)
    (by with_unfolding_all decide) (by with_unfolding_all decide)

end Parakeet
